import Mathlib

/-
  Verification development for the batch code-review pipeline in
  src/reviewer.py.  The pipeline walks a project, builds a mapping of
  relative path -> chat prompt, partitions it into batches bounded by a
  concurrency limit, gathers each batch against an external completion
  endpoint, and chains three stages (detail -> short -> project).

  Shallow embedding conventions:
  - Python strings are lists of characters (`Str`).
  - Python dicts are association lists in insertion order; assignment
    `d[k] = v` is `dinsert` (update in place if the key is present,
    append otherwise), matching Python dict semantics.
  - The completion endpoint is a function from seed and messages to
    `Option Str`; `none` models a request that raises (ServiceError).
  - `asyncio.gather` with default arguments re-raises the first failing
    task, so `process_batch` yields `none` as soon as any item of the
    batch fails; `main` then aborts, which `gatherBatchesLog` models by
    propagating `none`.
-/

set_option maxRecDepth 10000

/-- Characters of a Python string. -/
abbrev Str := List Char

/-- Message roles accepted by the completion endpoint. -/
inductive Role where
  | system : Role
  | user : Role
  | assistant : Role
  deriving DecidableEq

/-- A role-tagged chat message, as built by the to_openai helpers. -/
structure Message where
  role : Role
  content : Str
  deriving DecidableEq

/-- Fixed determinism seed (reviewer.py line 25). -/
def SEED : Nat := 66

/-- Concurrency limit used by main (reviewer.py line 29). -/
def NUMBER_OF_CONCURRENT_REQUESTS : Nat := 20

/-- Marker written when a file cannot be read (reviewer.py line 31). -/
def CANT_READ_FILE_MES : Str := "Can not read file".data

/-- Sentinel meaning a file needs no action (reviewer.py line 32). -/
def NO_CHANGES : Str := "No changes required".data

/-- Markdown title marker (reviewer.py line 38). -/
def MD_TITLE : Str := "## ".data

/-- A newline character, used by the f-string concatenations. -/
def NL : Str := "\n".data

/-- reviewer.py lines 191-192. -/
def to_openai_system_message (prompt : Str) : Message :=
  ⟨Role.system, prompt⟩

/-- reviewer.py lines 195-196. -/
def to_openai_user_message (prompt : Str) : Message :=
  ⟨Role.user, prompt⟩

/-- The external completion endpoint: a seed and an ordered message list
give either generated text or a failure (`none`, modelling a raised
ServiceError).  `openai_request client ms seed` is `client seed ms`. -/
abbrev Client : Type := Nat → List Message → Option Str

/-- Whether `sub` is a leading segment of the second list.  Executable
helper for the Python substring operator. -/
def isPrefixB : Str → Str → Bool
  | [], _ => true
  | _ :: _, [] => false
  | a :: s, b :: t => if a = b then isPrefixB s t else false

/-- The Python substring test `sub in l`. -/
def hasSub (sub : Str) : Str → Bool
  | [] => isPrefixB sub []
  | c :: t => isPrefixB sub (c :: t) || hasSub sub t

/-- Python dict assignment `d[k] = v` on an association list kept in
insertion order: replace in place when the key is present, otherwise
append at the end. -/
def dinsert {K V : Type} [DecidableEq K] : List (K × V) → K → V → List (K × V)
  | [], k, v => [(k, v)]
  | kv :: rest, k, v => if kv.1 = k then (k, v) :: rest else kv :: dinsert rest k v

/-- One run of the generator body of dict_to_batches (reviewer.py lines
231-234): repeatedly slice the next `bs` entries off the iterator.  The
fuel argument bounds the number of loop turns; the Python range loop
makes ceil(n / bs) turns, which is at most n for bs >= 1, so fuel = n
reproduces the generator exactly. -/
def dtbFuel {A : Type} (bs : Nat) : Nat → List A → List (List A)
  | _, [] => []
  | 0, _ :: _ => []
  | fuel + 1, a :: t => ((a :: t).take bs) :: dtbFuel bs fuel ((a :: t).drop bs)

/-- dict_to_batches (reviewer.py lines 231-234) on the entry list of the
input dict.  A batch size of 0 raises ValueError in Python and never
occurs in the program; it is mapped to no batches here. -/
def dict_to_batches {A : Type} (l : List A) (bs : Nat) : List (List A) :=
  if bs = 0 then [] else dtbFuel bs l.length l

/-- format_title (reviewer.py lines 228-229). -/
def format_title (k v : Str) : Str :=
  MD_TITLE ++ k ++ NL ++ NL ++ v

/-- process_batch (reviewer.py lines 243-250): create one task per entry
and gather them.  gather with default arguments re-raises the first
exception, so the batch produces a value only when every task does; the
result list keeps task order, pairing each key with its text. -/
def process_batch (client : Client) : List (Str × List Message) → Option (List (Str × Str))
  | [] => some []
  | kv :: rest =>
    match client SEED kv.2, process_batch client rest with
    | some r, some rs => some ((kv.1, r) :: rs)
    | _, _ => none

/-- The batch loop of a stage (reviewer.py lines 285-292): process each
batch in order, folding every gathered result into the stage dict as
`d[key] = format_title(key, result)`.  The second component logs every
request issued as a (seed, messages) pair; a failing batch has already
issued all of its requests and aborts the run (`none`). -/
def gatherBatchesLog (client : Client) :
    List (List (Str × List Message)) → List (Str × Str) →
    Option (List (Str × Str)) × List (Nat × List Message)
  | [], acc => (some acc, [])
  | b :: rest, acc =>
    let reqs := b.map (fun kv => (SEED, kv.2))
    match process_batch client b with
    | none => (none, reqs)
    | some rs =>
      let next := gatherBatchesLog client rest
        (rs.foldl (fun d kr => dinsert d kr.1 (format_title kr.1 kr.2)) acc)
      (next.1, reqs ++ next.2)

/-- The detail stage of main (reviewer.py lines 283-292): batch the
prompt dict and aggregate the gathered results into the result dict.
`none` means some request raised and the run aborted. -/
def run_detail_stage (client : Client) (M : List (Str × List Message)) (c : Nat) :
    Option (List (Str × Str)) :=
  (gatherBatchesLog client (dict_to_batches M c) []).1

/-- The (seed, messages) pairs issued while running the detail stage. -/
def run_detail_requests (client : Client) (M : List (Str × List Message)) (c : Nat) :
    List (Nat × List Message) :=
  (gatherBatchesLog client (dict_to_batches M c) []).2

/-- read_file_content (reviewer.py lines 168-182) with is_prompt false.
`fs` is the filesystem: `none` models open or read raising.  `rel` is
os.path.relpath against the base directory.  On failure the content is
the title line followed by the marker; the helper itself never fails. -/
def read_file_content (fs : Str → Option Str) (rel : Str → Str) (file_path : Str) :
    Str × Str :=
  let rel_path := rel file_path
  let marker := List.replicate 30 ('-' : Char)
  let title := marker ++ " ".data ++ rel_path ++ " ".data ++ marker ++ NL
  match fs file_path with
  | some data => (title ++ data ++ NL, rel_path)
  | none => (title ++ CANT_READ_FILE_MES ++ NL, rel_path)

/-- The detail prompt construction loop of main (reviewer.py lines
270-281): read every enumerated file, skip any whose assembled content
contains the cannot-read marker, and store the prompt under the relative
path. -/
def build_detail_dict (fs : Str → Option Str) (rel : Str → Str)
    (detail_prompt : Str) (files : List Str) : List (Str × List Message) :=
  files.foldl (fun acc f =>
    if hasSub CANT_READ_FILE_MES (read_file_content fs rel f).1 then acc
    else dinsert acc (read_file_content fs rel f).2
      [to_openai_system_message detail_prompt,
       to_openai_user_message (read_file_content fs rel f).1]) []

/-- The short prompt construction loop of main (reviewer.py lines
296-302): one entry per detail result, keyed identically, whose prompt
is the fixed short instruction followed by the detail text. -/
def build_short_dict (short_prompt : Str) (detail : List (Str × Str)) :
    List (Str × List Message) :=
  detail.foldl (fun acc kv =>
    dinsert acc kv.1 [to_openai_system_message short_prompt,
                      to_openai_system_message kv.2]) []

/-- Body of the short-phase aggregation loop (reviewer.py lines 309-317)
for one gathered (key, result) pair: format it and keep it unless the
formatted text contains the no-changes sentinel. -/
def short_filter_step (acc : List Str) (kr : Str × Str) : List Str :=
  let rf := format_title kr.1 kr.2
  if hasSub NO_CHANGES rf then acc else acc ++ [rf]

/-- The short-phase aggregation (reviewer.py lines 306-317) applied to
the concatenated gather results of all short batches, producing
files_analysis_results. -/
def collect_short_results (rs : List (Str × Str)) : List Str :=
  rs.foldl short_filter_step []

/-- The project phase of main (reviewer.py lines 321-330): turn every
retained short analysis into a system message, append the fixed project
instruction, and issue one request.  The second component logs the
single (seed, messages) request issued. -/
def run_project (client : Client) (retained : List Str) (project_prompt : Str) :
    Option Str × List (Nat × List Message) :=
  let openai_messages := retained.map to_openai_system_message
  let project_system_messages := openai_messages ++ [to_openai_system_message project_prompt]
  (client SEED project_system_messages, [(SEED, project_system_messages)])

/-- Observable events of the cooperative scheduler: a request leaving
for the completion service, and its response (or failure) arriving. -/
inductive Ev (K : Type) where
  | issue : K → Ev K
  | resolve : K → Ev K
  deriving DecidableEq

/-- State of the batch loop of main under the asyncio event loop:
batches not yet started, requests in flight from the current batch, and
the event trace so far. -/
structure Sched (K : Type) where
  pending : List (List K)
  inflight : List K
  trace : List (Ev K)
  deriving DecidableEq

/-- Small-step semantics of `for batch in batches: await process_batch(batch)`.
`start` is gather creating all tasks of the next batch: each task runs to
its first await, issuing its request; it is enabled only when nothing is
in flight, because the loop is suspended on the previous gather until
every task of that batch has resolved.  `finish` is the event loop
resuming with the response (or exception) of any in-flight request, in
arbitrary order. -/
inductive SchedStep {K : Type} [DecidableEq K] : Sched K → Sched K → Prop where
  | start : ∀ (b : List K) (rest : List (List K)) (tr : List (Ev K)),
      SchedStep ⟨b :: rest, [], tr⟩ ⟨rest, b, tr ++ b.map Ev.issue⟩
  | finish : ∀ (k : K) (bs : List (List K)) (fl : List K) (tr : List (Ev K)),
      k ∈ fl → SchedStep ⟨bs, fl, tr⟩ ⟨bs, fl.erase k, tr ++ [Ev.resolve k]⟩

/-- Reachability of a scheduler state from the start of the batch loop. -/
def Reach {K : Type} [DecidableEq K] (batches : List (List K)) (s : Sched K) : Prop :=
  Relation.ReflTransGen SchedStep ⟨batches, [], []⟩ s

/-- Batch-sequenced traces: the trace decomposes batch by batch, each
segment consisting of all issues of that batch (in batch order) followed
by all of its resolutions in some order.  In particular no request of a
later batch is issued before every request of an earlier batch has
resolved, and within a batch every request is issued before any of the
batch resolves. -/
inductive GoodTrace {K : Type} : List (List K) → List (Ev K) → Prop where
  | nil : GoodTrace [] []
  | snoc : ∀ (bs : List (List K)) (tr : List (Ev K)) (b p : List K),
      GoodTrace bs tr → p.Perm b →
      GoodTrace (bs ++ [b]) (tr ++ (b.map Ev.issue ++ p.map Ev.resolve))

/-- Inductive invariant of the batch loop: either the loop sits between
batches with a batch-sequenced trace of the finished batches, or it is
inside one batch, whose issues have all been appended and whose resolved
keys so far, together with the in-flight keys, are a permutation of the
batch. -/
def SchedInv {K : Type} (batches : List (List K)) (s : Sched K) : Prop :=
  (∃ d, batches = d ++ s.pending ∧ s.inflight = [] ∧ GoodTrace d s.trace)
  ∨ (∃ d b resolved tr0, batches = d ++ b :: s.pending ∧ GoodTrace d tr0 ∧
      (resolved ++ s.inflight).Perm b ∧
      s.trace = tr0 ++ b.map Ev.issue ++ resolved.map Ev.resolve)

/-- Deterministic client used to instantiate universal statements. -/
def okClient : Client := fun _ _ => some ("ok".data)

/-- Client that fails for exactly one prompt (the one built for key b)
and succeeds for every other prompt. -/
def cxClientB : Client := fun _ ms =>
  if ms = [to_openai_user_message ("pb".data)] then none else some ("ok".data)

/-- Two-item input mapping whose second prompt is the one cxClientB
fails on; both items fit into a single batch of size 20. -/
def cxM : List (Str × List Message) :=
  [("a".data, [to_openai_user_message ("pa".data)]),
   ("b".data, [to_openai_user_message ("pb".data)])]

/-- Filesystem with a single perfectly readable file whose stored text
is the cannot-read marker itself. -/
def cxFs : Str → Option Str := fun p =>
  if p = "a.py".data then some CANT_READ_FILE_MES else none

/-- Short-phase gather results used to instantiate universal
statements: one ordinary result and one carrying the sentinel. -/
def wShortRs : List (Str × Str) :=
  [("a".data, "fix x".data), ("b".data, "No changes required".data)]

/-- Two-item input mapping with Nat identifiers used to drive the
scheduler machine at concurrency 1 (two singleton batches). -/
def wBatchesM : List (Nat × List Message) := [(0, []), (1, [])]

/-- Three-item input mapping used to instantiate universal statements. -/
def wM3 : List (Str × List Message) :=
  [("a".data, []), ("b".data, []), ("c".data, [])]

/-- Result dict produced by running the detail stage on wM3 against
okClient: each key is paired with its formatted result text. -/
def wOut3 : List (Str × Str) :=
  [("a".data, format_title ("a".data) ("ok".data)),
   ("b".data, format_title ("b".data) ("ok".data)),
   ("c".data, format_title ("c".data) ("ok".data))]

/-! ## Batching lemmas -/

lemma dtbFuel_nil {A : Type} (bs fuel : Nat) : dtbFuel bs fuel ([] : List A) = [] := by
  cases fuel <;> rfl

lemma dtbFuel_flatten {A : Type} (b fuel : Nat) (l : List A) (h : l.length ≤ fuel) :
    (dtbFuel (b + 1) fuel l).flatten = l := by
  induction fuel generalizing l with
  | zero =>
    have hl : l = [] := List.length_eq_zero.mp (Nat.le_zero.mp h)
    subst hl
    simp [dtbFuel]
  | succ fuel ih =>
    cases l with
    | nil => simp [dtbFuel]
    | cons a t =>
      show ((a :: t).take (b + 1) :: dtbFuel (b + 1) fuel ((a :: t).drop (b + 1))).flatten
        = a :: t
      rw [List.flatten_cons, ih]
      · exact List.take_append_drop _ _
      · rw [List.length_drop]
        simp only [List.length_cons] at h ⊢
        omega

lemma dtbFuel_length {A : Type} (b fuel : Nat) (l : List A) (h : l.length ≤ fuel) :
    (dtbFuel (b + 1) fuel l).length = (l.length + b) / (b + 1) := by
  induction fuel generalizing l with
  | zero =>
    have hl : l = [] := List.length_eq_zero.mp (Nat.le_zero.mp h)
    subst hl
    simp [dtbFuel, Nat.div_eq_of_lt (Nat.lt_succ_self b)]
  | succ fuel ih =>
    cases l with
    | nil => simp [dtbFuel, Nat.div_eq_of_lt (Nat.lt_succ_self b)]
    | cons a t =>
      have hrec : ((a :: t).drop (b + 1)).length ≤ fuel := by
        rw [List.length_drop]
        simp only [List.length_cons] at h ⊢
        omega
      show (((a :: t).take (b + 1)) :: dtbFuel (b + 1) fuel ((a :: t).drop (b + 1))).length
        = ((a :: t).length + b) / (b + 1)
      rw [List.length_cons, ih _ hrec, List.length_drop]
      have hn1 : 1 ≤ (a :: t).length := by simp
      by_cases hbig : b + 1 ≤ (a :: t).length
      · have h2 : (a :: t).length + b = ((a :: t).length - (b + 1) + b) + (b + 1) := by omega
        rw [h2, Nat.add_div_right _ (Nat.succ_pos b)]
      · have hnb : (a :: t).length - (b + 1) = 0 := by omega
        rw [hnb]
        have hb0 : (0 + b) / (b + 1) = 0 := Nat.div_eq_of_lt (by omega)
        have h3 : (a :: t).length + b = ((a :: t).length - 1) + (b + 1) := by omega
        rw [hb0, h3, Nat.add_div_right _ (Nat.succ_pos b),
          Nat.div_eq_of_lt (by omega : (a :: t).length - 1 < b + 1)]

lemma dtbFuel_batch_le {A : Type} (b fuel : Nat) (l : List A) :
    ∀ c ∈ dtbFuel (b + 1) fuel l, c.length ≤ b + 1 := by
  induction fuel generalizing l with
  | zero =>
    intro c hc
    cases l <;> simp [dtbFuel] at hc
  | succ fuel ih =>
    intro c hc
    cases l with
    | nil => simp [dtbFuel] at hc
    | cons a t =>
      rw [show dtbFuel (b + 1) (fuel + 1) (a :: t)
          = ((a :: t).take (b + 1)) :: dtbFuel (b + 1) fuel ((a :: t).drop (b + 1)) from rfl] at hc
      rcases List.mem_cons.mp hc with h1 | h2
      · subst h1
        rw [List.length_take]
        exact Nat.min_le_left _ _
      · exact ih _ c h2

lemma dtbFuel_ne_nil {A : Type} (b fuel : Nat) (l : List A) (h0 : l ≠ []) (h : l.length ≤ fuel) :
    dtbFuel (b + 1) fuel l ≠ [] := by
  cases fuel with
  | zero =>
    cases l with
    | nil => exact absurd rfl h0
    | cons a t => simp at h
  | succ fuel =>
    cases l with
    | nil => exact absurd rfl h0
    | cons a t => simp [dtbFuel]

lemma dtbFuel_dropLast {A : Type} (b fuel : Nat) (l : List A) (h : l.length ≤ fuel) :
    ∀ c ∈ (dtbFuel (b + 1) fuel l).dropLast, c.length = b + 1 := by
  induction fuel generalizing l with
  | zero =>
    have hl : l = [] := List.length_eq_zero.mp (Nat.le_zero.mp h)
    subst hl
    intro c hc
    simp [dtbFuel] at hc
  | succ fuel ih =>
    intro c hc
    cases l with
    | nil => simp [dtbFuel] at hc
    | cons a t =>
      rw [show dtbFuel (b + 1) (fuel + 1) (a :: t)
          = ((a :: t).take (b + 1)) :: dtbFuel (b + 1) fuel ((a :: t).drop (b + 1)) from rfl] at hc
      by_cases hd : (a :: t).drop (b + 1) = []
      · rw [hd, dtbFuel_nil] at hc
        simp at hc
      · have hlen : ((a :: t).drop (b + 1)).length ≤ fuel := by
          rw [List.length_drop]
          simp only [List.length_cons] at h ⊢
          omega
        rw [List.dropLast_cons_of_ne_nil (dtbFuel_ne_nil b fuel _ hd hlen)] at hc
        rcases List.mem_cons.mp hc with h1 | h2
        · subst h1
          have hgt : b + 1 < (a :: t).length := by
            by_contra hle
            exact hd (List.drop_eq_nil_iff.mpr (by omega))
          rw [List.length_take]
          omega
        · exact ih _ hlen c h2

/-! ## Association list and fold lemmas -/

lemma dinsert_fresh {K V : Type} [DecidableEq K] (d : List (K × V)) (k : K) (v : V)
    (h : k ∉ d.map Prod.fst) : dinsert d k v = d ++ [(k, v)] := by
  induction d with
  | nil => rfl
  | cons kv rest ih =>
    simp only [List.map_cons, List.mem_cons] at h
    push_neg at h
    rw [show dinsert (kv :: rest) k v
        = if kv.1 = k then (k, v) :: rest else kv :: dinsert rest k v from rfl]
    rw [if_neg (fun he => h.1 he.symm), ih h.2]
    rfl

lemma foldl_dinsert_eq {A K V : Type} [DecidableEq K] (g : A → K) (f : A → V)
    (l : List A) (acc : List (K × V))
    (hd : ∀ a ∈ l, g a ∉ acc.map Prod.fst) (hn : (l.map g).Nodup) :
    l.foldl (fun d a => dinsert d (g a) (f a)) acc = acc ++ l.map (fun a => (g a, f a)) := by
  induction l generalizing acc with
  | nil => simp
  | cons a t ih =>
    simp only [List.foldl_cons]
    rw [dinsert_fresh acc (g a) (f a) (hd a (List.mem_cons_self a t))]
    rw [ih (acc ++ [(g a, f a)])]
    · simp
    · intro x hx
      have h1 : g x ∉ acc.map Prod.fst := hd x (List.mem_cons_of_mem a hx)
      have h2 : g x ≠ g a := by
        simp only [List.map_cons, List.nodup_cons] at hn
        intro he
        exact hn.1 (he ▸ List.mem_map_of_mem g hx)
      simp [List.map_append, h1, h2]
    · simp only [List.map_cons, List.nodup_cons] at hn
      exact hn.2

/-! ## Batch processing lemmas -/

lemma process_batch_keys (client : Client) (b : List (Str × List Message))
    (rs : List (Str × Str)) (h : process_batch client b = some rs) :
    rs.map Prod.fst = b.map Prod.fst := by
  induction b generalizing rs with
  | nil =>
    simp only [process_batch, Option.some.injEq] at h
    subst h
    rfl
  | cons kv rest ih =>
    simp only [process_batch] at h
    cases hc : client SEED kv.2 with
    | none => rw [hc] at h; simp at h
    | some r =>
      cases hr : process_batch client rest with
      | none => rw [hc, hr] at h; simp at h
      | some rs2 =>
        rw [hc, hr] at h
        simp only [Option.some.injEq] at h
        subst h
        simp [ih rs2 hr]

lemma process_batch_none (client : Client) (b : List (Str × List Message))
    (k : Str) (v : List Message) (hmem : (k, v) ∈ b) (hfail : client SEED v = none) :
    process_batch client b = none := by
  induction b with
  | nil => simp at hmem
  | cons kv rest ih =>
    rcases List.mem_cons.mp hmem with h1 | h2
    · have : kv.2 = v := by rw [← h1]
      simp only [process_batch, this, hfail]
    · simp only [process_batch, ih h2]
      cases client SEED kv.2 <;> rfl

lemma gather_none_of_batch_none (client : Client)
    (batches : List (List (Str × List Message))) (bt : List (Str × List Message))
    (acc : List (Str × Str)) (hbt : bt ∈ batches) (hn : process_batch client bt = none) :
    (gatherBatchesLog client batches acc).1 = none := by
  induction batches generalizing acc with
  | nil => simp at hbt
  | cons b rest ih =>
    simp only [gatherBatchesLog]
    rcases List.mem_cons.mp hbt with h1 | h2
    · subst h1
      rw [hn]
    · cases hpb : process_batch client b with
      | none => rfl
      | some rs => exact ih _ h2

lemma gatherBatches_keys (client : Client) (batches : List (List (Str × List Message)))
    (acc : List (Str × Str)) (out : List (Str × Str))
    (hnd : (acc.map Prod.fst ++ (batches.map (List.map Prod.fst)).flatten).Nodup)
    (h : (gatherBatchesLog client batches acc).1 = some out) :
    out.map Prod.fst = acc.map Prod.fst ++ (batches.map (List.map Prod.fst)).flatten := by
  induction batches generalizing acc with
  | nil =>
    simp only [gatherBatchesLog, Option.some.injEq] at h
    subst h
    simp
  | cons b rest ih =>
    simp only [gatherBatchesLog] at h
    cases hpb : process_batch client b with
    | none => rw [hpb] at h; simp at h
    | some rs =>
      rw [hpb] at h
      dsimp only at h
      have hkeys := process_batch_keys client b rs hpb
      simp only [List.map_cons, List.flatten_cons] at hnd
      have hnd2 : ((acc.map Prod.fst ++ b.map Prod.fst)
          ++ (rest.map (List.map Prod.fst)).flatten).Nodup := by
        rw [List.append_assoc]
        exact hnd
      have hdisj : (acc.map Prod.fst).Disjoint (b.map Prod.fst ++ (rest.map (List.map Prod.fst)).flatten) :=
        (List.nodup_append.mp hnd).2.2
      have hbnd : (b.map Prod.fst).Nodup :=
        (List.nodup_append.mp (List.nodup_append.mp hnd).2.1).1
      have hfold : rs.foldl (fun d kr => dinsert d kr.1 (format_title kr.1 kr.2)) acc
          = acc ++ rs.map (fun kr => (kr.1, format_title kr.1 kr.2)) := by
        apply foldl_dinsert_eq
        · intro a ha hmem
          have ha1 : a.1 ∈ b.map Prod.fst := hkeys ▸ List.mem_map_of_mem Prod.fst ha
          exact hdisj hmem (List.mem_append_left _ ha1)
        · rw [show rs.map (fun kr => kr.1) = rs.map Prod.fst from rfl, hkeys]
          exact hbnd
      rw [hfold] at h
      have hacckeys : (acc ++ rs.map (fun kr => (kr.1, format_title kr.1 kr.2))).map Prod.fst
          = acc.map Prod.fst ++ b.map Prod.fst := by
        rw [List.map_append, List.map_map]
        rw [show (Prod.fst ∘ fun kr : Str × Str => (kr.1, format_title kr.1 kr.2))
            = Prod.fst from rfl, hkeys]
      have := ih _ (by rw [hacckeys]; exact hnd2) h
      rw [this, hacckeys, List.append_assoc]
      simp [List.flatten_cons]

/-! ## Claim C1 -/

/-- Claim C1: for every non-empty input mapping with distinct identifiers
and every concurrency limit of at least 1, a stage run that completes
produces a result mapping whose identifier list equals the identifier
list of the input exactly — every input identifier appears exactly once,
with no drops and no duplicates. -/
theorem detail_stage_keys_exact (client : Client) (M : List (Str × List Message)) (c : Nat)
    (out : List (Str × Str)) (_hne : M ≠ []) (hc : 1 ≤ c)
    (hnd : (M.map Prod.fst).Nodup)
    (hok : run_detail_stage client M c = some out) :
    out.map Prod.fst = M.map Prod.fst := by
  obtain ⟨b, rfl⟩ : ∃ b, c = b + 1 := ⟨c - 1, by omega⟩
  have hdef : dict_to_batches M (b + 1) = dtbFuel (b + 1) M.length M := by
    simp [dict_to_batches]
  have hflat : ((dict_to_batches M (b + 1)).map (List.map Prod.fst)).flatten
      = M.map Prod.fst := by
    rw [← List.map_flatten, hdef, dtbFuel_flatten b _ M (le_refl _)]
  have hok2 : (gatherBatchesLog client (dict_to_batches M (b + 1)) []).1 = some out := hok
  have hkeys := gatherBatches_keys client (dict_to_batches M (b + 1)) [] out
    (by rw [List.map_nil, List.nil_append, hflat]; exact hnd) hok2
  rw [hkeys, List.map_nil, List.nil_append]
  exact hflat

/-- Witness for detail_stage_keys_exact: a concrete three-item mapping
run at concurrency 20 against a client that always succeeds. -/
theorem detail_stage_keys_exact_witness :
    run_detail_stage okClient wM3 20 = some wOut3
    ∧ wOut3.map Prod.fst = wM3.map Prod.fst :=
  ⟨by decide,
   detail_stage_keys_exact okClient wM3 20 wOut3 (by decide) (by decide) (by decide) (by decide)⟩

/-! ## Claim C2 -/

/-- Claim C2 counterexample: a batch of two items in which the request
for exactly one identifier fails.  The claim says the failure is
isolated — the sibling identifier should still produce its result and
the failing one a tagged failure marker.  Instead gather re-raises the
exception out of process_batch and the stage run aborts with no output
mapping at all: the sibling result is discarded and no failure marker
exists anywhere in the code. -/
theorem one_failure_drops_siblings_cex :
    cxClientB SEED [to_openai_user_message ("pa".data)] = some ("ok".data)
    ∧ cxClientB SEED [to_openai_user_message ("pb".data)] = none
    ∧ run_detail_stage cxClientB cxM 20 = none := by
  decide

/-- Claim C2 amended: if any single request of the input mapping fails,
the whole stage run aborts: the first exception propagates out of
gather, so no stage output mapping is produced, sibling results are
discarded, and no per-item failure marker is recorded. -/
theorem batch_failure_aborts_run (client : Client) (M : List (Str × List Message))
    (c : Nat) (k : Str) (v : List Message) (hc : 1 ≤ c) (hmem : (k, v) ∈ M)
    (hfail : client SEED v = none) :
    run_detail_stage client M c = none := by
  obtain ⟨b, rfl⟩ : ∃ b, c = b + 1 := ⟨c - 1, by omega⟩
  have hdef : dict_to_batches M (b + 1) = dtbFuel (b + 1) M.length M := by
    simp [dict_to_batches]
  have hmem2 : (k, v) ∈ (dict_to_batches M (b + 1)).flatten := by
    rw [hdef, dtbFuel_flatten b _ M (le_refl _)]
    exact hmem
  obtain ⟨bt, hbt, hin⟩ := List.mem_flatten.mp hmem2
  exact gather_none_of_batch_none client _ bt [] hbt
    (process_batch_none client bt k v hin hfail)

/-- Witness for batch_failure_aborts_run at the concrete two-item
mapping whose second prompt fails. -/
theorem batch_failure_aborts_run_witness :
    run_detail_stage cxClientB cxM 2 = none :=
  batch_failure_aborts_run cxClientB cxM 2 ("b".data)
    [to_openai_user_message ("pb".data)] (by decide) (by decide) (by decide)

/-! ## Claim C3 -/

/-- Claim C3: for every input mapping and batch size of at least 1, the
batching generator yields exactly ceil of length over batch size many
batches, each of size at most the batch size, every batch except
possibly the last of full size, and their concatenation is the input
entry list in iteration order; the empty mapping yields zero batches and
a stage run on it issues no requests. -/
theorem dict_to_batches_law (client : Client) (M : List (Str × List Message)) (c : Nat)
    (hc : 1 ≤ c) :
    (dict_to_batches M c).length = (M.length + (c - 1)) / c
    ∧ (dict_to_batches M c).all (fun bt => decide (bt.length ≤ c)) = true
    ∧ ((dict_to_batches M c).dropLast).all (fun bt => decide (bt.length = c)) = true
    ∧ (dict_to_batches M c).flatten = M
    ∧ dict_to_batches ([] : List (Str × List Message)) c = []
    ∧ run_detail_requests client [] c = [] := by
  obtain ⟨b, rfl⟩ : ∃ b, c = b + 1 := ⟨c - 1, by omega⟩
  have hdef : dict_to_batches M (b + 1) = dtbFuel (b + 1) M.length M := by
    simp [dict_to_batches]
  refine ⟨?_, ?_, ?_, ?_, ?_, ?_⟩
  · rw [hdef, dtbFuel_length b M.length M (le_refl _)]
    simp
  · rw [hdef, List.all_eq_true]
    intro x hx
    exact decide_eq_true (dtbFuel_batch_le b _ M x hx)
  · rw [hdef, List.all_eq_true]
    intro x hx
    exact decide_eq_true (dtbFuel_dropLast b _ M (le_refl _) x hx)
  · rw [hdef]
    exact dtbFuel_flatten b _ M (le_refl _)
  · simp [dict_to_batches, dtbFuel]
  · simp [run_detail_requests, dict_to_batches, dtbFuel, gatherBatchesLog]

/-- Witness for dict_to_batches_law: three entries at batch size 2 give
two consecutive batches of sizes 2 and 1. -/
theorem dict_to_batches_law_witness :
    (dict_to_batches wM3 2).length = (wM3.length + (2 - 1)) / 2
    ∧ (dict_to_batches wM3 2).all (fun bt => decide (bt.length ≤ 2)) = true
    ∧ ((dict_to_batches wM3 2).dropLast).all (fun bt => decide (bt.length = 2)) = true
    ∧ (dict_to_batches wM3 2).flatten = wM3
    ∧ dict_to_batches ([] : List (Str × List Message)) 2 = []
    ∧ run_detail_requests okClient [] 2 = [] :=
  dict_to_batches_law okClient wM3 2 (by decide)

/-! ## Substring lemmas -/

lemma isPrefixB_refl_append (sub post : Str) : isPrefixB sub (sub ++ post) = true := by
  induction sub with
  | nil => rfl
  | cons a s ih => simp [isPrefixB, ih]

lemma hasSub_here (sub post : Str) : hasSub sub (sub ++ post) = true := by
  cases sub with
  | nil =>
    cases post with
    | nil => rfl
    | cons c t => rfl
  | cons a s =>
    show (isPrefixB (a :: s) ((a :: s) ++ post) || hasSub (a :: s) (s ++ post)) = true
    rw [isPrefixB_refl_append]
    rfl

lemma hasSub_append_left (sub pre rest : Str) (h : hasSub sub rest = true) :
    hasSub sub (pre ++ rest) = true := by
  induction pre with
  | nil => exact h
  | cons c t ih =>
    show (isPrefixB sub (c :: (t ++ rest)) || hasSub sub (t ++ rest)) = true
    rw [ih]
    exact Bool.or_true _

/-! ## Short-phase filter lemmas -/

lemma collect_short_foldl (rs : List (Str × Str)) (acc : List Str) :
    rs.foldl short_filter_step acc
    = acc ++ (rs.filter
        (fun kr => !hasSub NO_CHANGES (format_title kr.1 kr.2))).map
        (fun kr => format_title kr.1 kr.2) := by
  induction rs generalizing acc with
  | nil => simp
  | cons kr rest ih =>
    simp only [List.foldl_cons, List.filter_cons]
    cases hB : hasSub NO_CHANGES (format_title kr.1 kr.2) with
    | true =>
      have hstep : short_filter_step acc kr = acc := by
        simp [short_filter_step, hB]
      rw [hstep, ih]
      simp [hB]
    | false =>
      have hstep : short_filter_step acc kr = acc ++ [format_title kr.1 kr.2] := by
        simp [short_filter_step, hB]
      rw [hstep, ih]
      simp [hB]

/-! ## Claim C5 -/

/-- Claim C5: a gathered short-phase result is retained in the
project-phase input set exactly when its formatted result text does not
contain the no-changes sentinel, and a retained text appears in the
input set verbatim (membership of the exact formatted string). -/
theorem short_filter_law (rs : List (Str × Str)) (k r : Str) (hmem : (k, r) ∈ rs) :
    format_title k r ∈ collect_short_results rs
      ↔ hasSub NO_CHANGES (format_title k r) = false := by
  rw [show collect_short_results rs = rs.foldl short_filter_step [] from rfl,
    collect_short_foldl rs [], List.nil_append]
  constructor
  · intro hin
    obtain ⟨kr, hkr, heq⟩ := List.mem_map.mp hin
    have h2 : hasSub NO_CHANGES (format_title kr.1 kr.2) = false := by
      simpa using (List.mem_filter.mp hkr).2
    rw [← heq]
    exact h2
  · intro hfalse
    apply List.mem_map.mpr
    refine ⟨(k, r), List.mem_filter.mpr ⟨hmem, ?_⟩, rfl⟩
    simp [hfalse]

/-- Witness for short_filter_law: a sentinel-free result from a
two-result short phase is retained. -/
theorem short_filter_law_witness :
    format_title ("a".data) ("fix x".data) ∈ collect_short_results wShortRs
      ↔ hasSub NO_CHANGES (format_title ("a".data) ("fix x".data)) = false :=
  short_filter_law wShortRs ("a".data) ("fix x".data) (by decide)

/-! ## Detail-mapping lemmas -/

lemma read_file_content_snd (fs : Str → Option Str) (rel : Str → Str) (f : Str) :
    (read_file_content fs rel f).2 = rel f := by
  cases h : fs f <;> simp [read_file_content, h]

lemma build_detail_foldl (fs : Str → Option Str) (rel : Str → Str) (dp : Str)
    (files : List Str) (acc : List (Str × List Message))
    (hd : ∀ f ∈ files, rel f ∉ acc.map Prod.fst) (hn : (files.map rel).Nodup) :
    files.foldl (fun acc f =>
      if hasSub CANT_READ_FILE_MES (read_file_content fs rel f).1 then acc
      else dinsert acc (read_file_content fs rel f).2
        [to_openai_system_message dp,
         to_openai_user_message (read_file_content fs rel f).1]) acc
    = acc ++ (files.filter
        (fun f => !hasSub CANT_READ_FILE_MES (read_file_content fs rel f).1)).map
        (fun f => (rel f, [to_openai_system_message dp,
                           to_openai_user_message (read_file_content fs rel f).1])) := by
  induction files generalizing acc with
  | nil => simp
  | cons f t ih =>
    have hdt : ∀ x ∈ t, rel x ∉ acc.map Prod.fst :=
      fun x hx => hd x (List.mem_cons_of_mem f hx)
    have hnt : (t.map rel).Nodup := by
      simp only [List.map_cons, List.nodup_cons] at hn
      exact hn.2
    simp only [List.foldl_cons, List.filter_cons]
    cases hB : hasSub CANT_READ_FILE_MES (read_file_content fs rel f).1 with
    | true =>
      rw [if_pos rfl, ih acc hdt hnt]
      simp [hB]
    | false =>
      rw [if_neg (by simp), read_file_content_snd,
        dinsert_fresh acc (rel f) _ (hd f (List.mem_cons_self f t)),
        ih (acc ++ [(rel f, [to_openai_system_message dp,
          to_openai_user_message (read_file_content fs rel f).1])]) ?fresh hnt]
      · simp [hB]
      case fresh =>
        intro x hx
        have h1 : rel x ∉ acc.map Prod.fst := hdt x hx
        have h2 : rel x ≠ rel f := by
          simp only [List.map_cons, List.nodup_cons] at hn
          intro he
          exact hn.1 (he ▸ List.mem_map_of_mem rel hx)
        simp [List.map_append, h1, h2]

/-! ## Claim C6 -/

/-- Claim C6 counterexample: the claim says every file that reads
successfully is included in the detail mapping.  Here the read of a.py
succeeds (the filesystem returns its stored text), yet the file is
excluded from the mapping, because its content happens to contain the
string used as the cannot-read marker and inclusion is decided by a
substring test on the assembled content, not by whether the read
succeeded. -/
theorem readable_file_excluded_cex :
    cxFs ("a.py".data) = some CANT_READ_FILE_MES
    ∧ build_detail_dict cxFs (fun p => p) ("dp".data) [("a.py".data)] = [] := by
  decide

/-- Claim C6 amended: an enumerated file appears in the detail mapping
iff the content assembled for it (title line plus file text) does not
contain the cannot-read marker string.  Every read failure produces
content containing the marker and is therefore excluded (and the read
helper itself never raises — it is total), but a successfully read file
is also excluded whenever its assembled content happens to contain the
marker string. -/
theorem detail_dict_marker_law (fs : Str → Option Str) (rel : Str → Str) (dp : Str)
    (files : List Str) (f : Str) (hn : (files.map rel).Nodup) (hf : f ∈ files) :
    (rel f ∈ (build_detail_dict fs rel dp files).map Prod.fst
      ↔ hasSub CANT_READ_FILE_MES (read_file_content fs rel f).1 = false)
    ∧ (fs f = none → hasSub CANT_READ_FILE_MES (read_file_content fs rel f).1 = true) := by
  constructor
  · have hb2 : build_detail_dict fs rel dp files
        = [] ++ (files.filter
          (fun f => !hasSub CANT_READ_FILE_MES (read_file_content fs rel f).1)).map
          (fun f => (rel f, [to_openai_system_message dp,
                             to_openai_user_message (read_file_content fs rel f).1])) :=
      build_detail_foldl fs rel dp files [] (by simp) hn
    rw [hb2, List.nil_append, List.map_map]
    constructor
    · intro hin
      obtain ⟨f2, hf2, heq⟩ := List.mem_map.mp hin
      have hrel : rel f2 = rel f := heq
      have hmemfile : f2 ∈ files := (List.mem_filter.mp hf2).1
      have hp := (List.mem_filter.mp hf2).2
      have hff : f2 = f := List.inj_on_of_nodup_map hn hmemfile hf hrel
      subst hff
      simpa using hp
    · intro hfalse
      apply List.mem_map.mpr
      exact ⟨f, List.mem_filter.mpr ⟨hf, by simp [hfalse]⟩, rfl⟩
  · intro hnone
    have h1 : (read_file_content fs rel f).1
        = (List.replicate 30 ('-' : Char) ++ " ".data ++ rel f ++ " ".data
           ++ List.replicate 30 ('-' : Char) ++ NL) ++ (CANT_READ_FILE_MES ++ NL) := by
      simp [read_file_content, hnone]
    rw [h1]
    exact hasSub_append_left _ _ _ (hasSub_here _ _)

/-- Witness for detail_dict_marker_law: a two-file listing where the
second file fails to read; its key is absent from the mapping and its
assembled content carries the marker. -/
theorem detail_dict_marker_law_witness :
    ("b.py".data ∈ (build_detail_dict cxFs (fun p => p) ("dp".data)
        [("a.py".data), ("b.py".data)]).map Prod.fst
      ↔ hasSub CANT_READ_FILE_MES
          (read_file_content cxFs (fun p => p) ("b.py".data)).1 = false)
    ∧ (cxFs ("b.py".data) = none → hasSub CANT_READ_FILE_MES
          (read_file_content cxFs (fun p => p) ("b.py".data)).1 = true) :=
  detail_dict_marker_law cxFs (fun p => p) ("dp".data)
    [("a.py".data), ("b.py".data)] ("b.py".data) (by decide) (by decide)

/-! ## Claim C7 -/

/-- Claim C7: the short-phase input mapping is built one-to-one from the
detail-phase output mapping — identical identifier list, and for each
entry the prompt is exactly the fixed condense instruction followed by
that detail text; nothing is added, dropped or filtered. -/
theorem short_inputs_eq_detail_outputs (sp : Str) (detail : List (Str × Str))
    (hn : (detail.map Prod.fst).Nodup) :
    build_short_dict sp detail
    = detail.map (fun kv => (kv.1, [to_openai_system_message sp,
                                    to_openai_system_message kv.2])) := by
  have h := foldl_dinsert_eq (fun kv : Str × Str => kv.1)
    (fun kv : Str × Str => [to_openai_system_message sp, to_openai_system_message kv.2])
    detail [] (by simp) hn
  simpa [build_short_dict] using h

/-- Witness for short_inputs_eq_detail_outputs at a concrete two-entry
detail result mapping. -/
theorem short_inputs_eq_detail_outputs_witness :
    build_short_dict ("sp".data) wShortRs
    = wShortRs.map (fun kv => (kv.1, [to_openai_system_message ("sp".data),
                                      to_openai_system_message kv.2])) :=
  short_inputs_eq_detail_outputs ("sp".data) wShortRs (by decide)

/-! ## Claim C8 -/

/-- Claim C8: the project phase issues exactly one completion request,
whose message list is all retained short-analysis texts (as system
messages, in order) followed by the fixed project instruction, and its
result is the single aggregate text returned by the endpoint for that
message list. -/
theorem project_single_request (client : Client) (retained : List Str) (pp : Str) :
    (run_project client retained pp).2.length = 1
    ∧ (run_project client retained pp).2
      = [(SEED, retained.map to_openai_system_message ++ [to_openai_system_message pp])]
    ∧ (run_project client retained pp).1
      = client SEED (retained.map to_openai_system_message ++ [to_openai_system_message pp]) :=
  ⟨rfl, rfl, rfl⟩

/-! ## Claim C10 -/

/-- Claim C10: with an empty retained set the project phase still issues
exactly one request, whose message list consists solely of the fixed
project instruction. -/
theorem empty_retained_still_one_request (client : Client) (pp : Str) :
    run_project client (collect_short_results []) pp
    = (client SEED [to_openai_system_message pp],
       [(SEED, [to_openai_system_message pp])]) :=
  rfl

/-! ## Determinism lemmas -/

lemma process_batch_congr (c1 c2 : Client) (hag : ∀ ms, c1 SEED ms = c2 SEED ms)
    (b : List (Str × List Message)) : process_batch c1 b = process_batch c2 b := by
  induction b with
  | nil => rfl
  | cons kv rest ih => simp only [process_batch, hag kv.2, ih]

lemma gather_congr (c1 c2 : Client) (hag : ∀ ms, c1 SEED ms = c2 SEED ms)
    (batches : List (List (Str × List Message))) (acc : List (Str × Str)) :
    gatherBatchesLog c1 batches acc = gatherBatchesLog c2 batches acc := by
  induction batches generalizing acc with
  | nil => rfl
  | cons b rest ih =>
    simp only [gatherBatchesLog, process_batch_congr c1 c2 hag b]
    cases process_batch c2 b with
    | none => rfl
    | some rs =>
      dsimp only
      rw [ih]

lemma map_fst_seed (b : List (Str × List Message)) :
    (b.map (fun kv => ((SEED : Nat), kv.2))).map Prod.fst
    = List.replicate b.length SEED := by
  induction b with
  | nil => rfl
  | cons kv t ih => simp [ih, List.replicate_succ]

lemma gather_log_seeds (client : Client) (batches : List (List (Str × List Message)))
    (acc : List (Str × Str)) :
    ((gatherBatchesLog client batches acc).2).map Prod.fst
    = List.replicate ((gatherBatchesLog client batches acc).2).length SEED := by
  induction batches generalizing acc with
  | nil => rfl
  | cons b rest ih =>
    simp only [gatherBatchesLog]
    cases process_batch client b with
    | none =>
      dsimp only
      rw [map_fst_seed, List.length_map]
    | some rs =>
      dsimp only
      rw [List.map_append, map_fst_seed, ih, List.length_append, List.length_map,
        List.replicate_add]

/-! ## Claim C9 -/

/-- Claim C9: every request of a detail-stage run carries the fixed seed
(the seed column of the request log is constant), and the whole run —
result mapping and request log — depends only on the behaviour of the
client at that seed, so with a deterministic client two runs on the same
unchanged input mapping produce identical result mappings. -/
theorem detail_seed_determinism (c1 c2 : Client) (M : List (Str × List Message)) (c : Nat)
    (hag : ∀ ms, c1 SEED ms = c2 SEED ms) :
    (run_detail_requests c1 M c).map Prod.fst
      = List.replicate (run_detail_requests c1 M c).length SEED
    ∧ run_detail_stage c1 M c = run_detail_stage c2 M c
    ∧ run_detail_requests c1 M c = run_detail_requests c2 M c := by
  refine ⟨gather_log_seeds c1 _ _, ?_, ?_⟩
  · show (gatherBatchesLog c1 (dict_to_batches M c) []).1
      = (gatherBatchesLog c2 (dict_to_batches M c) []).1
    rw [gather_congr c1 c2 hag]
  · show (gatherBatchesLog c1 (dict_to_batches M c) []).2
      = (gatherBatchesLog c2 (dict_to_batches M c) []).2
    rw [gather_congr c1 c2 hag]

/-- Witness for detail_seed_determinism: the constant client agrees with
itself at the fixed seed, so a rerun reproduces the run exactly and
every logged request carries the fixed seed. -/
theorem detail_seed_determinism_witness :
    ((run_detail_requests okClient wM3 2).map Prod.fst
      = List.replicate (run_detail_requests okClient wM3 2).length SEED)
    ∧ run_detail_stage okClient wM3 2 = run_detail_stage okClient wM3 2
    ∧ run_detail_requests okClient wM3 2 = run_detail_requests okClient wM3 2 :=
  detail_seed_determinism okClient okClient wM3 2 (fun _ => rfl)

/-! ## Scheduler machine lemmas -/

lemma sched_inv_init {K : Type} [DecidableEq K] (batches : List (List K)) :
    SchedInv batches (⟨batches, [], []⟩ : Sched K) :=
  Or.inl ⟨[], by simp, rfl, GoodTrace.nil⟩

lemma sched_inv_step {K : Type} [DecidableEq K] (batches : List (List K)) (s s' : Sched K)
    (hinv : SchedInv batches s) (hstep : SchedStep s s') : SchedInv batches s' := by
  cases hstep with
  | start b rest tr =>
    rcases hinv with ⟨d, hbat, hinf, hgt⟩ | ⟨d, b0, resolved, tr0, hbat, hgt, hperm, htr⟩
    · have hbat2 : batches = d ++ b :: rest := hbat
      have hgt2 : GoodTrace d tr := hgt
      refine Or.inr ⟨d, b, [], tr, hbat2, hgt2, ?_, ?_⟩
      · simp
      · simp
    · have hbat2 : batches = d ++ b0 :: b :: rest := hbat
      have hperm1 : (resolved ++ ([] : List K)).Perm b0 := hperm
      have hperm2 : resolved.Perm b0 := by simpa using hperm1
      have htr2 : tr = tr0 ++ b0.map Ev.issue ++ resolved.map Ev.resolve := htr
      have hgt2 : GoodTrace (d ++ [b0]) tr := by
        rw [htr2, List.append_assoc]
        exact GoodTrace.snoc d tr0 b0 resolved hgt hperm2
      refine Or.inr ⟨d ++ [b0], b, [], tr, ?_, hgt2, ?_, ?_⟩
      · rw [hbat2]
        simp
      · simp
      · simp
  | finish k bs fl tr hk =>
    rcases hinv with ⟨d, hbat, hinf, hgt⟩ | ⟨d, b0, resolved, tr0, hbat, hgt, hperm, htr⟩
    · have hinf2 : fl = [] := hinf
      rw [hinf2] at hk
      simp at hk
    · have hbat2 : batches = d ++ b0 :: bs := hbat
      have hperm2 : (resolved ++ fl).Perm b0 := hperm
      have htr2 : tr = tr0 ++ b0.map Ev.issue ++ resolved.map Ev.resolve := htr
      refine Or.inr ⟨d, b0, resolved ++ [k], tr0, hbat2, hgt, ?_, ?_⟩
      · have hstep1 : (resolved ++ [k]) ++ fl.erase k = resolved ++ (k :: fl.erase k) := by
          simp
        rw [hstep1]
        exact (List.Perm.append_left resolved (List.perm_cons_erase hk).symm).trans hperm2
      · show tr ++ [Ev.resolve k]
          = tr0 ++ b0.map Ev.issue ++ (resolved ++ [k]).map Ev.resolve
        rw [htr2, List.map_append]
        simp

lemma sched_inv_reach {K : Type} [DecidableEq K] (batches : List (List K)) (s : Sched K)
    (h : Reach batches s) : SchedInv batches s := by
  induction h with
  | refl => exact sched_inv_init batches
  | tail hab hbc ih => exact sched_inv_step batches _ _ ih hbc

/-! ## Claim C4 -/

/-- Claim C4: for the batches produced from a stage input mapping, every
complete run of the batch loop (all batches started, nothing left in
flight) has a batch-sequenced trace: the events decompose batch by
batch, each segment being all issues of that batch followed by all of
its resolutions in some order.  Hence no request of batch K+1 is issued
before every request of batch K has resolved, all requests of one batch
are issued together, and the loop waits for the whole batch before
moving on — for every interleaving the event loop may choose. -/
theorem batch_order {K : Type} [DecidableEq K] (M : List (K × List Message)) (c : Nat)
    (s : Sched K)
    (h : Reach ((dict_to_batches M c).map (List.map Prod.fst)) s)
    (hp : s.pending = []) (hf : s.inflight = []) :
    GoodTrace ((dict_to_batches M c).map (List.map Prod.fst)) s.trace := by
  have hinv := sched_inv_reach _ s h
  rcases hinv with ⟨d, hbat, hinf, hgt⟩ | ⟨d, b0, resolved, tr0, hbat, hgt, hperm, htr⟩
  · rw [hp, List.append_nil] at hbat
    rw [hbat]
    exact hgt
  · rw [hp] at hbat
    rw [hf] at hperm
    have hperm2 : resolved.Perm b0 := by simpa using hperm
    rw [hbat, htr, List.append_assoc]
    exact GoodTrace.snoc d tr0 b0 resolved hgt hperm2

/-- Witness for batch_order: a two-item mapping at concurrency 1 gives
two singleton batches; one complete interleaving of the machine is
issue 0, resolve 0, issue 1, resolve 1, and its trace is
batch-sequenced. -/
theorem batch_order_witness :
    GoodTrace ((dict_to_batches wBatchesM 1).map (List.map Prod.fst))
      [Ev.issue 0, Ev.resolve 0, Ev.issue 1, Ev.resolve 1] := by
  have h1 : Reach ((dict_to_batches wBatchesM 1).map (List.map Prod.fst))
      (⟨[], [], [Ev.issue 0, Ev.resolve 0, Ev.issue 1, Ev.resolve 1]⟩ : Sched Nat) := by
    show Relation.ReflTransGen SchedStep
      (⟨[[0], [1]], [], []⟩ : Sched Nat)
      ⟨[], [], [Ev.issue 0, Ev.resolve 0, Ev.issue 1, Ev.resolve 1]⟩
    exact Relation.ReflTransGen.head (SchedStep.start [0] [[1]] [])
      (Relation.ReflTransGen.head (SchedStep.finish 0 [[1]] [0] [Ev.issue 0] (by simp))
        (Relation.ReflTransGen.head
          (SchedStep.start [1] [] [Ev.issue 0, Ev.resolve 0])
          (Relation.ReflTransGen.head
            (SchedStep.finish 1 [] [1] [Ev.issue 0, Ev.resolve 0, Ev.issue 1] (by simp))
            Relation.ReflTransGen.refl)))
  exact batch_order wBatchesM 1 _ h1 rfl rfl
